import Mathlib

/-!
# Verification of the JuliaBase tabular data-export core (`samples/views/table_export.py`)

This file gives a shallow embedding of the tree-to-table export pipeline:

* `DataNode` / `DataItem` — the heterogeneous input tree (`samples.data_tree`),
* `build_column_group_list` — unification of the row-tree forest into column
  groups and columns, with shared-column merging and heading disambiguation,
* `flatten_tree` — conversion of each row-tree into a name → (key → value) map,
* `Column.get_value` / `generate_table_rows` — final table generation,
* the `OldDataForm` selection serialization (tab-joined group names,
  space-joined column indices).

Python dictionaries are modelled as association lists with insertion-order
semantics (`dictInsert` replaces in place or appends at the end, exactly like
assignment into a `dict`); `list.insert` is modelled by `pyInsert`, which
clamps the position like Python does.  Fallible operations (`row[group][key]`,
`columns[i]`, `int(...)`) return `Option`, with `none` standing for the raised
exception.
-/

/-- One key–value item of a `DataNode` (`samples.data_tree.DataItem`).  The
`value` may be absent (`None` in Python); `origin` is the shared-column tag,
with the empty string standing for a missing (falsy) origin. -/
structure DataItem where
  key : String
  value : Option String
  origin : String
deriving Repr, DecidableEq

/-- One node of the input tree (`samples.data_tree.DataNode`): a `name`, the
key–value `items`, and the ordered `children`. -/
inductive DataNode : Type where
  | node : String → List DataItem → List DataNode → DataNode

/-- The `name` attribute of a `DataNode`. -/
def DataNode.name : DataNode → String
  | .node n _ _ => n

/-- The `items` attribute of a `DataNode`. -/
def DataNode.items : DataNode → List DataItem
  | .node _ its _ => its

/-- The `children` attribute of a `DataNode`. -/
def DataNode.children : DataNode → List DataNode
  | .node _ _ cs => cs

/-- Python `d[k] = v` on an insertion-ordered dictionary represented as an
association list: replace the value in place if the key is present, otherwise
append the new pair at the end. -/
def dictInsert {κ α : Type} [DecidableEq κ] (d : List (κ × α)) (k : κ) (v : α) :
    List (κ × α) :=
  if d.any (fun p => p.1 = k) then
    d.map (fun p => if p.1 = k then (k, v) else p)
  else
    d ++ [(k, v)]

/-- Python `d.get(k)` / `k in d`: look the key up in an association list. -/
def pyLookup {κ α : Type} [DecidableEq κ] (k : κ) : List (κ × α) → Option α
  | [] => none
  | p :: rest => if p.1 = k then some p.2 else pyLookup k rest

/-- Python `d1.update(d2)` on insertion-ordered dictionaries. -/
def dictUpdate {κ α : Type} [DecidableEq κ] (d d2 : List (κ × α)) : List (κ × α) :=
  d2.foldl (fun acc p => dictInsert acc p.1 p.2) d

/-- Python `l.insert(pos, a)`: positions beyond the end are clamped, so the
element is appended in that case. -/
def pyInsert {α : Type} (l : List α) (pos : Nat) (a : α) : List α :=
  l.take pos ++ a :: l.drop pos

/-- `ColumnGroup`: one unique node name together with the map from its item
keys to indices into the global `columns` list. -/
structure ColumnGroup where
  name : String
  key_indices : List (String × Nat)
deriving Repr, DecidableEq

/-- `Column`: one output column with the group names that may supply its value,
its pristine `key`, and its display `heading`. -/
structure Column where
  column_group_names : List String
  key : String
  heading : String
deriving Repr, DecidableEq

/-- The `Column` constructor: `column_group_names` starts as the singleton of
the creating group's name, and `heading` starts out equal to `key`. -/
def Column.init (column_group_name key : String) : Column :=
  ⟨[column_group_name], key, key⟩

/-- `Column.append_name`: record a further group containing this shared
column. -/
def Column.append_name (c : Column) (column_group_name : String) : Column :=
  { c with column_group_names := c.column_group_names ++ [column_group_name] }

/-- `Column.disambig`: rewrite the heading to
`"{key} \x7bgroup1 / group2 / ...\x7d"`. -/
def Column.disambig (c : Column) : Column :=
  { c with heading :=
      c.key ++ " \x7b" ++ String.intercalate " / " c.column_group_names ++ "\x7d" }

mutual

/-- The pre-order walk `walk_row_tree` of `build_column_group_list`: every node
of the subtree paired with its `top_level` flag (true exactly for the root of
the walk, i.e. a direct child of the forest root). -/
def walk_row_tree : DataNode → Bool → List (DataNode × Bool)
  | .node name items children, top_level =>
    (DataNode.node name items children, top_level) :: walk_children children

/-- The `for child in node.children: name_list.extend(...)` loop of
`walk_row_tree`. -/
def walk_children : List DataNode → List (DataNode × Bool)
  | [] => []
  | c :: cs => walk_row_tree c false ++ walk_children cs

end

/-- The mutable state of the per-node item loop in `build_column_group_list`:
the new group's `key_indices`, the global `columns`, the shared-column table,
and the running index `i`. -/
structure ItemState where
  key_indices : List (String × Nat)
  columns : List Column
  shared_columns : List ((String × String) × Nat)
  i : Nat
deriving Repr, DecidableEq

/-- One iteration of the item loop of `build_column_group_list` (lines
332–343): shared-column lookup and registration for origin-tagged items of
top-level nodes, otherwise allocation of a fresh `Column`.  The
`columns[shared_idx].append_name(name)` update uses an index recorded as a
previous `len(columns)`, hence always in range. -/
def process_item (top_level : Bool) (name : String) (s : ItemState)
    (item : DataItem) : ItemState :=
  if top_level = true ∧ item.origin ≠ "" then
    match pyLookup (item.origin, item.key) s.shared_columns with
    | some idx =>
      { s with
        key_indices := dictInsert s.key_indices item.key idx,
        columns := s.columns.set idx
          ((s.columns.getD idx (Column.init name item.key)).append_name name) }
    | none =>
      { key_indices := dictInsert s.key_indices item.key s.i,
        columns := s.columns ++ [Column.init name item.key],
        shared_columns := dictInsert s.shared_columns (item.origin, item.key) s.i,
        i := s.i + 1 }
  else
    { s with
      key_indices := dictInsert s.key_indices item.key s.i,
      columns := s.columns ++ [Column.init name item.key],
      i := s.i + 1 }

/-- The mutable state of the row-tree loop of `build_column_group_list`. -/
structure BuildState where
  columns : List Column
  column_groups : List ColumnGroup
  shared_columns : List ((String × String) × Nat)
  position : Nat
deriving Repr, DecidableEq

/-- One iteration of the node loop of `build_column_group_list` (lines
325–345).  `notFirstRow` is the `row > 0` test; membership of a `DataNode` in
`column_groups` and `column_groups.index(node)` compare by `name`
(`ColumnGroup.__eq__`). -/
def process_node (notFirstRow : Bool) (s : BuildState) (nt : DataNode × Bool) :
    BuildState :=
  if notFirstRow = true ∧ s.column_groups.any (fun g => g.name = nt.1.name) then
    { s with position := s.column_groups.findIdx (fun g => g.name = nt.1.name) + 1 }
  else
    let name := nt.1.name
    let istate := nt.1.items.foldl (process_item nt.2 name)
      ⟨[], s.columns, s.shared_columns, s.columns.length⟩
    { columns := istate.columns,
      column_groups := pyInsert s.column_groups s.position ⟨name, istate.key_indices⟩,
      shared_columns := istate.shared_columns,
      position := s.position + 1 }

/-- The whole double loop of `build_column_group_list` over
`enumerate(root.children)` and `walk_row_tree(row_tree)`. -/
def build_state (root : DataNode) : BuildState :=
  (root.children.enum).foldl
    (fun s p => (walk_row_tree p.2 true).foldl (process_node (decide (0 < p.1))) s)
    ⟨[], [], [], 0⟩

/-- The `seen` / `duplicates` loop of `disambig_key_names`: fold over the
columns collecting the keys seen so far and the keys seen at least twice. -/
def findDuplicates (columns : List Column) : List String × List String :=
  columns.foldl
    (fun (p : List String × List String) c =>
      if c.key ∈ p.1 then
        (p.1, if c.key ∈ p.2 then p.2 else p.2 ++ [c.key])
      else
        (p.1 ++ [c.key], p.2))
    ([], [])

/-- `disambig_key_names`: rewrite the heading of every column whose key occurs
on more than one column. -/
def disambig_key_names (columns : List Column) : List Column :=
  columns.map (fun c =>
    if c.key ∈ (findDuplicates columns).2 then c.disambig else c)

/-- `build_column_group_list`: the column groups and the (disambiguated)
columns extracted from the forest. -/
def build_column_group_list (root : DataNode) : List ColumnGroup × List Column :=
  ((build_state root).column_groups, disambig_key_names (build_state root).columns)

/-- A flattened row: a dictionary from node (column-group) names to
dictionaries from item keys to cell values. -/
abbrev Row := List (String × List (String × String))

/-- The dictionary comprehension
`dict((item.key, item.value if item.value is not None else "") for item in items)`. -/
def itemsDict (items : List DataItem) : List (String × String) :=
  items.foldl (fun d it => dictInsert d it.key (it.value.getD "")) []

mutual

/-- The inner `flatten_row_tree` of `flatten_tree`: start from the singleton
dictionary for this node, then `update` with each child's flattened tree. -/
def flatten_row_tree : DataNode → Row
  | .node name items children => flatten_children children [(name, itemsDict items)]

/-- The `for child in node.children: name_dict.update(...)` loop of
`flatten_row_tree`. -/
def flatten_children : List DataNode → Row → Row
  | [], d => d
  | c :: cs, d => flatten_children cs (dictUpdate d (flatten_row_tree c))

end

/-- `flatten_tree`: one flattened dictionary per row-tree, in forest order. -/
def flatten_tree (root : DataNode) : List Row :=
  root.children.map flatten_row_tree

/-- The loop of `Column.get_value` over the candidate group names: the first
group present in the row decides; `row[group][key]` may raise `KeyError`
(`none`); if no group is present the result is the empty string. -/
def get_value_aux (key : String) (row : Row) : List String → Option String
  | [] => some ""
  | g :: gs =>
    match pyLookup g row with
    | some kvs => pyLookup key kvs
    | none => get_value_aux key row gs

/-- `Column.get_value`: the cell value of this column in the given row,
`none` standing for a raised `KeyError`. -/
def Column.get_value (c : Column) (row : Row) : Option String :=
  get_value_aux c.key row c.column_group_names

/-- A `for` loop collecting `f a` for each element, aborting with `none` as a
raised exception would. -/
def mapOption {α β : Type} (f : α → Option β) : List α → Option (List β)
  | [] => some []
  | a :: rest =>
    match f a, mapOption f rest with
    | some b, some bs => some (b :: bs)
    | _, _ => none

/-- The body of the data-row loop of `generate_table_rows`: the optional label
cell (`label_column[i]`, which can be out of range) followed by
`columns[key_index].get_value(row)` for every selected index. -/
def generate_data_row (generate_label_column : Bool) (label_column : List String)
    (columns : List Column) (selected_key_indices : List Nat) (p : Nat × Row) :
    Option (List String) :=
  match (if generate_label_column then (label_column.get? p.1).map (fun l => [l])
         else some []) with
  | none => none
  | some lab =>
    match mapOption (fun i =>
        match columns.get? i with
        | some c => c.get_value p.2
        | none => none) selected_key_indices with
    | some cells => some (lab ++ cells)
    | none => none

/-- `generate_table_rows`: the header row followed by one row of cells per
flattened row.  The label column is generated only if some label is nonempty
(`any(label_column)`); out-of-range indices (`columns[i]`, `label_column[i]`)
and `KeyError` from `get_value` abort with `none`. -/
def generate_table_rows (flattened_tree : List Row) (columns : List Column)
    (selected_key_indices : List Nat) (label_column : List String)
    (label_column_heading : String) : Option (List (List String)) :=
  let generate_label_column := label_column.any (fun s => s ≠ "")
  match mapOption (fun i => (columns.get? i).map Column.heading) selected_key_indices with
  | none => none
  | some headings =>
    let head_row := (if generate_label_column then [label_column_heading] else []) ++ headings
    match mapOption
        (generate_data_row generate_label_column label_column columns selected_key_indices)
        flattened_tree.enum with
    | some data_rows => some (head_row :: data_rows)
    | none => none

/-! ## The `OldDataForm` selection serialization

Python strings are modelled as lists of characters here, since the claims are
about character-level `join` / `split` behaviour. -/

/-- The TAB separator of the column-group serialization. -/
def tabChar : Char := '\t'

/-- `"\t".join(column_group for column_group in ...)`: the previous
column-group selection serialized for the hidden `OldDataForm` field. -/
def serialize_column_groups (names : List (List Char)) : List Char :=
  List.intercalate [tabChar] names

/-- `OldDataForm.clean_column_groups`: `value.split("\t")` (the result is then
made into a set; we return the list of fields). -/
def clean_column_groups (s : List Char) : List (List Char) :=
  s.splitOn tabChar

/-- The big-endian decimal digit characters of `n` (the inner loop of Python
`str(i)` for a non-negative integer), with explicit fuel for structural
recursion; `fuel ≥ n` suffices. -/
def natToDigitsCore : Nat → Nat → List Char
  | 0, _ => []
  | fuel + 1, n =>
    if n = 0 then [] else natToDigitsCore fuel (n / 10) ++ [Nat.digitChar (n % 10)]

/-- Python `str(i)` for a natural number. -/
def natToDigits (n : Nat) : List Char :=
  if n = 0 then ['0'] else natToDigitsCore (n + 1) n

/-- `" ".join(str(i) for i in ...)`: the previous column selection serialized
for the hidden `OldDataForm` field. -/
def serialize_columns (ns : List Nat) : List Char :=
  List.intercalate [' '] (ns.map natToDigits)

/-- Python `str.split()` with no separator: split on whitespace runs and drop
empty fields. -/
def pySplitWhitespace (s : List Char) : List (List Char) :=
  (s.splitOnP (fun c => c.isWhitespace)).filter (fun f => f ≠ [])

/-- Python `int(token)`, restricted to the unsigned decimal numerals that the
serialization emits (the real `int` also accepts signs and surrounding
whitespace, which cannot occur in a `split()` field of a serialized
selection); `none` models the raised `ValueError`. -/
def pyInt (s : List Char) : Option Nat :=
  if s ≠ [] ∧ s.all Char.isDigit then
    some (s.foldl (fun a c => a * 10 + (c.toNat - 48)) 0)
  else
    none

/-- `OldDataForm.clean_columns`: `set(int(i) for i in value.split())`, with
`none` modelling the `ValueError` turned into a `ValidationError` (we return
the list of parsed numbers). -/
def clean_columns (s : List Char) : Option (List Nat) :=
  mapOption pyInt (pySplitWhitespace s)

/-! ## Basic lemmas about the dictionary and list helpers -/

theorem pyLookup_any_iff {κ α : Type} [DecidableEq κ] (d : List (κ × α)) (k : κ) :
    d.any (fun p => p.1 = k) = true ↔ ∃ v, pyLookup k d = some v := by
  induction d with
  | nil => simp [pyLookup]
  | cons p rest ih =>
    by_cases hk : p.1 = k
    · simp [pyLookup, hk]
    · simp [pyLookup, hk, ih]

theorem pyLookup_map_replace {κ α : Type} [DecidableEq κ] (d : List (κ × α))
    (k k2 : κ) (v : α) :
    pyLookup k (d.map (fun p => if p.1 = k2 then (k2, v) else p)) =
      if k2 = k then (pyLookup k d).map (fun _ => v) else pyLookup k d := by
  induction d with
  | nil => simp [pyLookup]
  | cons p rest ih =>
    by_cases hp : p.1 = k2
    · by_cases hk : k2 = k
      · simp [pyLookup, hp, hk]
      · have hpk : ¬ p.1 = k := fun h => hk (hp ▸ h)
        simp [pyLookup, hp, hk, hpk, ih]
    · by_cases hpk : p.1 = k
      · have hk : ¬ k2 = k := fun h => hp (hpk.trans h.symm)
        rw [List.map_cons, if_neg hp]
        simp [pyLookup, hpk, hk]
      · rw [List.map_cons, if_neg hp]
        simp [pyLookup, hpk, ih]

theorem pyLookup_append {κ α : Type} [DecidableEq κ] (d1 d2 : List (κ × α)) (k : κ) :
    pyLookup k (d1 ++ d2) =
      match pyLookup k d1 with
      | some v => some v
      | none => pyLookup k d2 := by
  induction d1 with
  | nil => simp [pyLookup]
  | cons p rest ih =>
    by_cases hk : p.1 = k
    · simp [pyLookup, hk]
    · simp [pyLookup, hk, ih]

theorem pyLookup_dictInsert {κ α : Type} [DecidableEq κ] (d : List (κ × α))
    (k k2 : κ) (v : α) :
    pyLookup k (dictInsert d k2 v) = if k2 = k then some v else pyLookup k d := by
  unfold dictInsert
  by_cases hmem : d.any (fun p => p.1 = k2) = true
  · rw [if_pos hmem, pyLookup_map_replace]
    by_cases hk : k2 = k
    · obtain ⟨w, hw⟩ := (pyLookup_any_iff d k2).1 hmem
      simp [hk, hk ▸ hw]
    · simp [hk]
  · rw [if_neg hmem, pyLookup_append]
    by_cases hk : k2 = k
    · subst hk
      have hno : ¬ ∃ w, pyLookup k2 d = some w := fun h => hmem ((pyLookup_any_iff d k2).2 h)
      cases hlk : pyLookup k2 d with
      | none => simp [pyLookup]
      | some w => exact absurd ⟨w, hlk⟩ hno
    · cases hlk : pyLookup k d with
      | none => simp [pyLookup, hlk, hk]
      | some w => simp [pyLookup, hlk, hk]

theorem mapOption_length {α β : Type} (f : α → Option β) (l : List α)
    (l2 : List β) (h : mapOption f l = some l2) : l2.length = l.length := by
  induction l generalizing l2 with
  | nil => simp [mapOption] at h; simp [h.symm]
  | cons a rest ih =>
    unfold mapOption at h
    cases hfa : f a with
    | none => rw [hfa] at h; exact absurd h (by simp)
    | some b =>
      rw [hfa] at h
      cases hrest : mapOption f rest with
      | none => rw [hrest] at h; exact absurd h (by simp)
      | some bs =>
        rw [hrest] at h
        cases h
        simp [ih bs hrest]

theorem mapOption_mem {α β : Type} (f : α → Option β) (l : List α)
    (l2 : List β) (h : mapOption f l = some l2) (b : β) (hb : b ∈ l2) :
    ∃ a ∈ l, f a = some b := by
  induction l generalizing l2 with
  | nil => simp [mapOption] at h; subst h; cases hb
  | cons a rest ih =>
    unfold mapOption at h
    cases hfa : f a with
    | none => rw [hfa] at h; exact absurd h (by simp)
    | some b1 =>
      rw [hfa] at h
      cases hrest : mapOption f rest with
      | none => rw [hrest] at h; exact absurd h (by simp)
      | some bs =>
        rw [hrest] at h
        cases h
        rcases List.mem_cons.1 hb with hb1 | hb2
        · exact ⟨a, List.mem_cons_self a rest, hb1 ▸ hfa⟩
        · obtain ⟨a2, ha2, hfa2⟩ := ih bs hrest hb2
          exact ⟨a2, List.mem_cons_of_mem a ha2, hfa2⟩

theorem mapOption_map_some {α β : Type} (f : α → Option β) (g : α → β) (l : List α)
    (h : ∀ a ∈ l, f a = some (g a)) : mapOption f l = some (l.map g) := by
  induction l with
  | nil => rfl
  | cons a rest ih =>
    unfold mapOption
    rw [h a (List.mem_cons_self a rest), ih (fun a2 ha2 => h a2 (List.mem_cons_of_mem a ha2))]
    rfl

/-! ## C5 / C9: `Column.get_value` -/

theorem get_value_aux_skip (key : String) (row : Row) (gs1 gs2 : List String)
    (h : ∀ g1 ∈ gs1, pyLookup g1 row = none) :
    get_value_aux key row (gs1 ++ gs2) = get_value_aux key row gs2 := by
  induction gs1 with
  | nil => rfl
  | cons g rest ih =>
    have hstep : get_value_aux key row ((g :: rest) ++ gs2) =
        match pyLookup g row with
        | some kvs => pyLookup key kvs
        | none => get_value_aux key row (rest ++ gs2) := rfl
    rw [hstep, h g (List.mem_cons_self g rest)]
    exact ih (fun g1 hg1 => h g1 (List.mem_cons_of_mem g hg1))

theorem get_value_aux_none (key : String) (row : Row) (gs : List String)
    (h : ∀ g ∈ gs, pyLookup g row = none) :
    get_value_aux key row gs = some "" := by
  have := get_value_aux_skip key row gs [] h
  rw [List.append_nil] at this
  rw [this]
  rfl

/-- C5: `Column.get_value` searches `column_group_names` in order and returns
the value stored under the column's key in the first group name present in the
row's mapping; if none of the column's group names appears in the row, it
returns the empty string rather than failing. -/
theorem C5_get_value_first_group_or_empty (c : Column) (row : Row) :
    (∀ gs1 g gs2 kvs v,
      c.column_group_names = gs1 ++ g :: gs2 →
      (∀ g1 ∈ gs1, pyLookup g1 row = none) →
      pyLookup g row = some kvs →
      pyLookup c.key kvs = some v →
      c.get_value row = some v) ∧
    ((∀ g ∈ c.column_group_names, pyLookup g row = none) →
      c.get_value row = some "") := by
  constructor
  · intro gs1 g gs2 kvs v hsplit hnone hg hv
    unfold Column.get_value
    rw [hsplit, get_value_aux_skip c.key row gs1 (g :: gs2) hnone]
    have hstep : get_value_aux c.key row (g :: gs2) =
        match pyLookup g row with
        | some kvs => pyLookup c.key kvs
        | none => get_value_aux c.key row gs2 := rfl
    rw [hstep, hg]
    exact hv
  · intro hnone
    exact get_value_aux_none c.key row c.column_group_names hnone

/-- Witness for C5 at a concrete column and rows: the first present group
(`"G2"`) supplies the value, and a row containing none of the groups yields
the empty string. -/
theorem C5_get_value_first_group_or_empty_witness :
    Column.get_value ⟨["G1", "G2"], "k", "k"⟩ [("G2", [("k", "7")])] = some "7" ∧
    Column.get_value ⟨["G1", "G2"], "k", "k"⟩ [("H", [("k", "9")])] = some "" := by
  constructor
  · exact (C5_get_value_first_group_or_empty ⟨["G1", "G2"], "k", "k"⟩
      [("G2", [("k", "7")])]).1 ["G1"] "G2" [] [("k", "7")] "7" rfl
      (by intro g1 hg1; fin_cases hg1 <;> rfl) rfl rfl
  · exact (C5_get_value_first_group_or_empty ⟨["G1", "G2"], "k", "k"⟩
      [("H", [("k", "9")])]).2 (by intro g hg; fin_cases hg <;> rfl)

/-- C9: `Column.get_value` is not total: in a row where one of the column's
group names is present but that group's mapping lacks the column's key (as a
later row-tree with an already-known node name but different items produces),
`row[group][key]` raises `KeyError` (`none`), and `generate_table_rows`
propagates the failure instead of producing a table.  The forest below has a
second row-tree whose node `"G"` carries key `"other"` instead of `"k"`. -/
theorem C9_get_value_keyerror :
    (build_column_group_list
        (.node "root" [] [.node "G" [⟨"k", some "1", ""⟩] [],
                          .node "G" [⟨"other", some "2", ""⟩] []])).2 =
      [⟨["G"], "k", "k"⟩] ∧
    flatten_tree
        (.node "root" [] [.node "G" [⟨"k", some "1", ""⟩] [],
                          .node "G" [⟨"other", some "2", ""⟩] []]) =
      [[("G", [("k", "1")])], [("G", [("other", "2")])]] ∧
    Column.get_value ⟨["G"], "k", "k"⟩ [("G", [("other", "2")])] = none ∧
    generate_table_rows
        [[("G", [("k", "1")])], [("G", [("other", "2")])]]
        [⟨["G"], "k", "k"⟩] [0] ["", ""] "sample" = none := by
  refine ⟨?_, ?_, ?_, ?_⟩ <;> rfl

/-! ## C4: rectangularity of `generate_table_rows` -/

theorem generate_data_row_length (glc : Bool) (label_column : List String)
    (columns : List Column) (selected : List Nat) (p : Nat × Row)
    (r : List String)
    (h : generate_data_row glc label_column columns selected p = some r) :
    r.length = (if glc then 1 else 0) + selected.length := by
  unfold generate_data_row at h
  cases glc with
  | false =>
    rw [if_neg (by decide : ¬ (false = true))] at h
    cases hc : mapOption (fun i =>
        match columns.get? i with
        | some c => c.get_value p.2
        | none => none) selected with
    | none => rw [hc] at h; exact absurd h (by simp)
    | some cells =>
      rw [hc] at h
      simp only [Option.some.injEq] at h
      subst h
      simp [mapOption_length _ _ _ hc]
  | true =>
    rw [if_pos (by decide : (true = true))] at h
    cases hl : label_column.get? p.1 with
    | none => rw [hl] at h; exact absurd h (by simp [Option.map])
    | some l =>
      rw [hl] at h
      simp only [Option.map_some'] at h
      cases hc : mapOption (fun i =>
          match columns.get? i with
          | some c => c.get_value p.2
          | none => none) selected with
      | none => rw [hc] at h; exact absurd h (by simp)
      | some cells =>
        rw [hc] at h
        simp only [Option.some.injEq] at h
        subst h
        simp [mapOption_length _ _ _ hc, Nat.add_comm]

theorem generate_table_rows_lengths (flattened : List Row) (columns : List Column)
    (selected : List Nat) (label_column : List String) (heading : String)
    (table : List (List String))
    (htab : generate_table_rows flattened columns selected label_column heading =
      some table) :
    ∀ r ∈ table,
      r.length = (if label_column.any (fun s => s ≠ "") then 1 else 0) + selected.length := by
  unfold generate_table_rows at htab
  cases hh : mapOption (fun i => (columns.get? i).map Column.heading) selected with
  | none => rw [hh] at htab; exact absurd htab (by simp)
  | some headings =>
    rw [hh] at htab
    simp only at htab
    cases hd : mapOption
        (generate_data_row (label_column.any (fun s => s ≠ "")) label_column columns selected)
        flattened.enum with
    | none => rw [hd] at htab; exact absurd htab (by simp)
    | some data_rows =>
      rw [hd] at htab
      simp only [Option.some.injEq] at htab
      subst htab
      intro r hr
      rcases List.mem_cons.1 hr with hr1 | hr2
      · subst hr1
        have hlen := mapOption_length _ _ _ hh
        cases hglc : label_column.any (fun s => s ≠ "") with
        | false => simp [hglc, hlen]
        | true => simp [hglc, hlen, Nat.add_comm]
      · obtain ⟨p, _, hp⟩ := mapOption_mem _ _ _ hd r hr2
        exact generate_data_row_length _ _ _ _ _ _ hp

/-- C4: for a label column of matching length and valid selected indices,
`generate_table_rows` produces a rectangular table: every row (header and data
rows alike) has `len(selected) + 1` cells when at least one label is nonempty,
and `len(selected)` cells when every label is empty (the label column is
omitted entirely). -/
theorem C4_generate_table_rows_rectangular (flattened : List Row)
    (columns : List Column) (selected : List Nat) (label_column : List String)
    (heading : String) (table : List (List String))
    (hsel : ∀ i ∈ selected, i < columns.length)
    (hlen : label_column.length = flattened.length)
    (htab : generate_table_rows flattened columns selected label_column heading =
      some table) :
    ((∃ l ∈ label_column, l ≠ "") → ∀ r ∈ table, r.length = selected.length + 1) ∧
    ((∀ l ∈ label_column, l = "") → ∀ r ∈ table, r.length = selected.length) := by
  have hmain := generate_table_rows_lengths flattened columns selected label_column
    heading table htab
  constructor
  · intro hex r hr
    have hany : label_column.any (fun s => s ≠ "") = true := by
      rcases hex with ⟨l, hl, hlne⟩
      exact List.any_eq_true.2 ⟨l, hl, by simpa using hlne⟩
    have := hmain r hr
    rw [hany] at this
    simpa [Nat.add_comm] using this
  · intro hall r hr
    have hany : label_column.any (fun s => s ≠ "") = false := by
      rw [List.any_eq_false]
      intro l hl
      simpa using hall l hl
    have := hmain r hr
    rw [hany] at this
    simpa using this

/-- Witness for C4 at a concrete table: with one nonempty label the rows have
three cells; with all-empty labels they have two. -/
theorem C4_generate_table_rows_rectangular_witness :
    (∃ l ∈ ["s1", "s2"], l ≠ "") ∧
    (∀ r ∈ [["sample", "k", "j"], ["s1", "1", "2"], ["s2", "", ""]], r.length = 2 + 1) := by
  have h := C4_generate_table_rows_rectangular
    [[("G", [("k", "1"), ("j", "2")])], [("H", [])]]
    [⟨["G"], "k", "k"⟩, ⟨["G"], "j", "j"⟩] [0, 1] ["s1", "s2"] "sample"
    [["sample", "k", "j"], ["s1", "1", "2"], ["s2", "", ""]]
    (by intro i hi; fin_cases hi <;> decide) rfl rfl
  exact ⟨⟨"s1", by simp, by simp⟩, h.1 ⟨"s1", by simp, by simp⟩⟩

/-! ## C10: a later same-named node is skipped entirely -/

/-- C10: when a node of a later row-tree (`row > 0`) has a name equal to an
already-registered `ColumnGroup`, the builder only repositions the cursor: the
columns, column groups and shared-column table are unchanged (so no new
`Column`, no `key_indices` entry and no shared-column registration), and the
resulting state does not depend on the node's items or children at all. -/
theorem C10_known_name_skips_items (s : BuildState) (n : DataNode) (tl : Bool)
    (h : s.column_groups.any (fun g => g.name = n.name) = true) :
    (process_node true s (n, tl)).columns = s.columns ∧
    (process_node true s (n, tl)).column_groups = s.column_groups ∧
    (process_node true s (n, tl)).shared_columns = s.shared_columns ∧
    ∀ (items2 : List DataItem) (children2 : List DataNode),
      process_node true s (.node n.name items2 children2, tl) =
        process_node true s (n, tl) := by
  have hname : ∀ (its : List DataItem) (cs : List DataNode),
      (DataNode.node n.name its cs).name = n.name := fun _ _ => rfl
  simp [process_node, h, hname]

/-- Witness for C10: a later node named `"A"` with a fresh key `"y"` leaves
the single existing column untouched. -/
theorem C10_known_name_skips_items_witness :
    (process_node true ⟨[⟨["A"], "x", "x"⟩], [⟨"A", [("x", 0)]⟩], [], 1⟩
        (.node "A" [⟨"y", some "2", ""⟩] [], true)).columns = [⟨["A"], "x", "x"⟩] :=
  (C10_known_name_skips_items ⟨[⟨["A"], "x", "x"⟩], [⟨"A", [("x", 0)]⟩], [], 1⟩
    (.node "A" [⟨"y", some "2", ""⟩] []) true (by decide)).1

/-! ## C7: no invariant assertion guards inconsistent forests -/

/-- C7 counterexample: on a forest where the name `"B"` appears nested in the
first row-tree and top-level in the second (the spec's example of an
inconsistent structure), `build_column_group_list` contains no invariant
assertion and does not abort: it returns an ordinary result in which the
second tree's item `"y"` never becomes a column. -/
theorem C7_returns_normally_counterexample :
    build_column_group_list
        (.node "root" [] [.node "A" [] [.node "B" [⟨"x", some "1", ""⟩] []],
                          .node "B" [⟨"y", some "2", ""⟩] []]) =
      ([⟨"A", []⟩, ⟨"B", [("x", 0)]⟩], [⟨["B"], "x", "x"⟩]) := rfl

/-- C7 amended: `build_column_group_list` performs no invariant assertion
before returning; on any forest in which a node name appears nested in the
first row-tree and top-level in the second, it returns normally, merging the
later top-level node into the existing group by name and silently dropping its
items. -/
theorem C7_no_assertion_amended (a b k1 k2 : String) (v1 v2 : Option String)
    (hab : a ≠ b) :
    build_column_group_list
        (.node "r" [] [.node a [] [.node b [⟨k1, v1, ""⟩] []],
                       .node b [⟨k2, v2, ""⟩] []]) =
      ([⟨a, []⟩, ⟨b, [(k1, 0)]⟩], [⟨[b], k1, k1⟩]) := by
  simp [build_column_group_list, build_state, walk_row_tree, walk_children,
    process_node, process_item, pyInsert, dictInsert, disambig_key_names,
    findDuplicates, Column.init, DataNode.name, DataNode.items, DataNode.children,
    hab, List.findIdx_cons, pyLookup, List.enum, List.enumFrom]

/-- Witness for C7's amended statement at concrete names. -/
theorem C7_no_assertion_amended_witness :
    build_column_group_list
        (.node "r" [] [.node "P" [] [.node "Q" [⟨"u", some "5", ""⟩] []],
                       .node "Q" [⟨"w", some "6", ""⟩] []]) =
      ([⟨"P", []⟩, ⟨"Q", [("u", 0)]⟩], [⟨["Q"], "u", "u"⟩]) :=
  C7_no_assertion_amended "P" "Q" "u" "w" (some "5") (some "6") (by decide)

/-! ## C2: shared-column merging for top-level origin-tagged items -/

/-- C2: when two row-trees each consist of a top-level node (distinct names
`a`, `b`) carrying an item with the same `(origin, key)` pair and nonempty
origin, exactly one `Column` is created: the second group's `key_indices`
entry points to the existing column's index `0` and the second group's name is
appended to that column's `column_group_names`.  When the same items sit on
nested (non-top-level) nodes instead, no merging happens: two separate
columns result, each owned by a single group (and their shared key is then
disambiguated in the headings). -/
theorem C2_shared_column_merging (a b a2 b2 k o : String) (v1 v2 : Option String)
    (hab : a ≠ b) (ho : o ≠ "")
    (h1 : b ≠ a2) (h2 : b2 ≠ a) (h3 : b2 ≠ a2) (h4 : b2 ≠ b) :
    build_column_group_list
        (.node "root" [] [.node a [⟨k, v1, o⟩] [], .node b [⟨k, v2, o⟩] []]) =
      ([⟨a, [(k, 0)]⟩, ⟨b, [(k, 0)]⟩], [⟨[a, b], k, k⟩]) ∧
    build_column_group_list
        (.node "root" [] [.node a [] [.node a2 [⟨k, v1, o⟩] []],
                          .node b [] [.node b2 [⟨k, v2, o⟩] []]]) =
      ([⟨a, []⟩, ⟨a2, [(k, 0)]⟩, ⟨b, []⟩, ⟨b2, [(k, 1)]⟩],
       [⟨[a2], k, k ++ " \x7b" ++ a2 ++ "\x7d"⟩,
        ⟨[b2], k, k ++ " \x7b" ++ b2 ++ "\x7d"⟩]) := by
  constructor
  · simp [build_column_group_list, build_state, walk_row_tree, walk_children,
      process_node, process_item, pyInsert, dictInsert, disambig_key_names,
      findDuplicates, Column.init, Column.append_name, DataNode.name, DataNode.items,
      DataNode.children, hab, ho, List.findIdx_cons, pyLookup, List.enum, List.enumFrom]
  · have h1s := Ne.symm h1
    have h2s := Ne.symm h2
    have h3s := Ne.symm h3
    have h4s := Ne.symm h4
    simp [build_column_group_list, build_state, walk_row_tree, walk_children,
      process_node, process_item, pyInsert, dictInsert, disambig_key_names,
      findDuplicates, Column.init, Column.append_name, Column.disambig, DataNode.name,
      DataNode.items, DataNode.children, hab, ho, h1, h2, h3, h4, h1s, h2s, h3s, h4s,
      List.findIdx_cons, pyLookup, List.enum, List.enumFrom, String.intercalate,
      String.intercalate.go]

/-- Witness for C2 at the spec's own example: origin `"gasA"`, key `"flow"`. -/
theorem C2_shared_column_merging_witness :
    build_column_group_list
        (.node "root" [] [.node "A" [⟨"flow", some "1", "gasA"⟩] [],
                          .node "B" [⟨"flow", some "2", "gasA"⟩] []]) =
      ([⟨"A", [("flow", 0)]⟩, ⟨"B", [("flow", 0)]⟩], [⟨["A", "B"], "flow", "flow"⟩]) :=
  (C2_shared_column_merging "A" "B" "A2" "B2" "flow" "gasA" (some "1") (some "2")
    (by decide) (by decide) (by decide) (by decide) (by decide) (by decide)).1

/-! ## C3: heading disambiguation -/

theorem foldl_preserve {α β : Type} (f : α → β → α) (P : α → Prop)
    (h : ∀ s b, P s → P (f s b)) (l : List β) (s : α) (hs : P s) :
    P (l.foldl f s) := by
  induction l generalizing s with
  | nil => exact hs
  | cons b rest ih => exact ih (f s b) (h s b hs)

theorem findDuplicates_aux (cs : List Column) (seen dups : List String) (x : String) :
    (x ∈ (cs.foldl
      (fun (p : List String × List String) c =>
        if c.key ∈ p.1 then
          (p.1, if c.key ∈ p.2 then p.2 else p.2 ++ [c.key])
        else
          (p.1 ++ [c.key], p.2))
      (seen, dups)).2 ↔
      x ∈ dups ∨ 2 ≤ (cs.map Column.key).count x + (if x ∈ seen then 1 else 0)) := by
  induction cs generalizing seen dups with
  | nil =>
    simp only [List.foldl_nil, List.map_nil, List.count_nil, Nat.zero_add]
    constructor
    · exact Or.inl
    · rintro (h | h)
      · exact h
      · by_cases hx : x ∈ seen <;> simp [hx] at h
  | cons c rest ih =>
    rw [List.foldl_cons]
    have hC : List.count x (List.map Column.key (c :: rest)) =
        List.count x (List.map Column.key rest) + if c.key = x then 1 else 0 := by
      simp [List.count_cons]
    by_cases hmem : c.key ∈ seen
    · rw [if_pos hmem]
      refine Iff.trans (ih _ _) ?_
      have hdups : x ∈ (if c.key ∈ dups then dups else dups ++ [c.key]) ↔
          (x ∈ dups ∨ x = c.key) := by
        by_cases hd : c.key ∈ dups
        · rw [if_pos hd]
          exact ⟨Or.inl, fun h => h.elim id (fun he => he ▸ hd)⟩
        · rw [if_neg hd]
          simp
      rw [hdups, hC]
      by_cases hx : x = c.key
      · subst hx
        have hS : (if c.key ∈ seen then 1 else 0) = 1 := if_pos hmem
        apply iff_of_true
        · exact Or.inl (Or.inr rfl)
        · right
          rw [if_pos rfl, hS]
          omega
      · have hx2 : ¬ (c.key = x) := fun h => hx h.symm
        rw [if_neg hx2, Nat.add_zero]
        constructor
        · rintro ((h | h) | h)
          · exact Or.inl h
          · exact absurd h hx
          · exact Or.inr h
        · rintro (h | h)
          · exact Or.inl (Or.inl h)
          · exact Or.inr h
    · rw [if_neg hmem]
      refine Iff.trans (ih _ _) ?_
      rw [hC]
      by_cases hx : x = c.key
      · subst hx
        have hS1 : (if c.key ∈ seen ++ [c.key] then 1 else 0) = 1 :=
          if_pos (List.mem_append.2 (Or.inr (List.mem_singleton.2 rfl)))
        have hS0 : (if c.key ∈ seen then 1 else 0) = 0 := if_neg hmem
        rw [hS1, hS0, if_pos rfl]
      · have hx2 : ¬ (c.key = x) := fun h => hx h.symm
        have hSS : (x ∈ seen ++ [c.key]) ↔ x ∈ seen := by
          rw [List.mem_append, List.mem_singleton]
          exact ⟨fun h => h.elim id (fun he => absurd he hx), Or.inl⟩
        rw [if_congr hSS rfl rfl, if_neg hx2, Nat.add_zero]

theorem findDuplicates_iff (cs : List Column) (x : String) :
    x ∈ (findDuplicates cs).2 ↔ 2 ≤ (cs.map Column.key).count x := by
  have h := findDuplicates_aux cs [] [] x
  unfold findDuplicates
  rw [h]
  simp

theorem getD_heading_key (cols : List Column) (idx : Nat) (d : Column)
    (h : ∀ c ∈ cols, c.heading = c.key) (hd : d.heading = d.key) :
    (cols.getD idx d).heading = (cols.getD idx d).key := by
  induction cols generalizing idx with
  | nil => simpa [List.getD] using hd
  | cons c rest ih =>
    cases idx with
    | zero => simpa [List.getD] using h c (List.mem_cons_self c rest)
    | succ n =>
      simpa [List.getD] using
        ih n (fun c2 hc2 => h c2 (List.mem_cons_of_mem c hc2))

theorem process_item_heading_key (tl : Bool) (name : String) (s : ItemState)
    (it : DataItem) (h : ∀ c ∈ s.columns, c.heading = c.key) :
    ∀ c ∈ (process_item tl name s it).columns, c.heading = c.key := by
  intro c hc
  unfold process_item at hc
  by_cases hcond : tl = true ∧ it.origin ≠ ""
  · rw [if_pos hcond] at hc
    cases hl : pyLookup (it.origin, it.key) s.shared_columns with
    | some idx =>
      rw [hl] at hc
      simp only at hc
      rcases List.mem_or_eq_of_mem_set hc with hc1 | hc2
      · exact h c hc1
      · subst hc2
        exact getD_heading_key s.columns idx (Column.init name it.key) h rfl
    | none =>
      rw [hl] at hc
      simp only at hc
      rcases List.mem_append.1 hc with hc1 | hc2
      · exact h c hc1
      · rw [List.mem_singleton.1 hc2]; rfl
  · rw [if_neg hcond] at hc
    rcases List.mem_append.1 hc with hc1 | hc2
    · exact h c hc1
    · rw [List.mem_singleton.1 hc2]; rfl

theorem process_node_heading_key (b : Bool) (s : BuildState) (nt : DataNode × Bool)
    (h : ∀ c ∈ s.columns, c.heading = c.key) :
    ∀ c ∈ (process_node b s nt).columns, c.heading = c.key := by
  unfold process_node
  by_cases hcond : b = true ∧ s.column_groups.any (fun g => g.name = nt.1.name) = true
  · rw [if_pos hcond]
    exact h
  · rw [if_neg hcond]
    simp only
    exact foldl_preserve (process_item nt.2 nt.1.name)
      (fun st => ∀ c ∈ st.columns, c.heading = c.key)
      (fun st it hst => process_item_heading_key nt.2 nt.1.name st it hst)
      nt.1.items ⟨[], s.columns, s.shared_columns, s.columns.length⟩ h

theorem build_state_heading_key (root : DataNode) :
    ∀ c ∈ (build_state root).columns, c.heading = c.key := by
  unfold build_state
  refine foldl_preserve _
    (fun st : BuildState => ∀ c ∈ st.columns, c.heading = c.key) ?_ _ _ ?_
  · intro st p hst
    exact foldl_preserve _
      (fun st2 : BuildState => ∀ c ∈ st2.columns, c.heading = c.key)
      (fun st2 nt hst2 => process_node_heading_key _ st2 nt hst2) _ st hst
  · intro c hc
    cases hc

theorem disambig_key_names_map_key (cs : List Column) :
    (disambig_key_names cs).map Column.key = cs.map Column.key := by
  unfold disambig_key_names
  rw [List.map_map]
  apply List.map_congr_left
  intro c _
  by_cases hd : c.key ∈ (findDuplicates cs).2 <;> simp [hd, Column.disambig]

/-- C3: after `build_column_group_list`, a column whose key occurs on more
than one column has heading `"{key} \x7bgroup1 / group2 / ...\x7d"` (its
`column_group_names` joined by `" / "` inside braces), and a column whose key
occurs on exactly one column keeps `heading = key`. -/
theorem C3_heading_disambiguation (root : DataNode) (c : Column)
    (hc : c ∈ (build_column_group_list root).2) :
    (2 ≤ (((build_column_group_list root).2).map Column.key).count c.key →
      c.heading = c.key ++ " \x7b" ++
        String.intercalate " / " c.column_group_names ++ "\x7d") ∧
    ((((build_column_group_list root).2).map Column.key).count c.key = 1 →
      c.heading = c.key) := by
  have hpre := build_state_heading_key root
  have hbuild : (build_column_group_list root).2 =
      disambig_key_names (build_state root).columns := rfl
  rw [hbuild] at hc ⊢
  rw [disambig_key_names_map_key]
  unfold disambig_key_names at hc
  obtain ⟨c0, hc0, hceq⟩ := List.mem_map.1 hc
  by_cases hd : c0.key ∈ (findDuplicates (build_state root).columns).2
  · rw [if_pos hd] at hceq
    subst hceq
    constructor
    · intro _
      simp [Column.disambig]
    · intro h1
      exfalso
      have h2 := (findDuplicates_iff _ _).1 hd
      have hkey : Column.key c0.disambig = c0.key := rfl
      rw [hkey] at h1
      omega
  · rw [if_neg hd] at hceq
    subst hceq
    constructor
    · intro h2
      exact absurd ((findDuplicates_iff _ _).2 h2) hd
    · intro _
      exact hpre c0 hc0

/-- Witness for C3 at a concrete forest: the duplicated key `"pressure"` gets
the group-name suffix, applied through the theorem at the first column. -/
theorem C3_heading_disambiguation_witness :
    Column.heading ⟨["G1"], "pressure", "pressure \x7bG1\x7d"⟩ =
      "pressure" ++ " \x7b" ++ String.intercalate " / " ["G1"] ++ "\x7d" :=
  (C3_heading_disambiguation
    (.node "root" [] [.node "G1" [⟨"pressure", some "1", ""⟩] [],
                      .node "G2" [⟨"pressure", some "2", ""⟩, ⟨"temp", some "3", ""⟩] []])
    ⟨["G1"], "pressure", "pressure \x7bG1\x7d"⟩ (by decide)).1 (by decide)

/-! ## C6: `flatten_tree` -/

/-- All nodes of a subtree, in pre-order (the nodes visited by
`walk_row_tree`). -/
def allNodes (n : DataNode) : List DataNode :=
  (walk_row_tree n true).map Prod.fst

/-- The names of all nodes of a subtree, in pre-order. -/
def nodeNames (n : DataNode) : List String :=
  (allNodes n).map DataNode.name

/-- The expected flattened form of a row-tree: one entry per descendant node
(in pre-order), mapping its name to its items dictionary. -/
def rowEntries (n : DataNode) : Row :=
  (allNodes n).map (fun m => (m.name, itemsDict m.items))

theorem walk_map_fst (n : DataNode) (tl : Bool) :
    (walk_row_tree n tl).map Prod.fst = allNodes n := by
  cases n
  rfl

theorem walk_children_map_fst (cs : List DataNode) :
    (walk_children cs).map Prod.fst = (cs.map allNodes).flatten := by
  induction cs with
  | nil => rfl
  | cons c rest ih =>
    show (walk_row_tree c false ++ walk_children rest).map Prod.fst = _
    rw [List.map_append, walk_map_fst, ih, List.map_cons, List.flatten_cons]

theorem allNodes_node (nm : String) (its : List DataItem) (cs : List DataNode) :
    allNodes (.node nm its cs) = .node nm its cs :: (cs.map allNodes).flatten := by
  show ((DataNode.node nm its cs, true) :: walk_children cs).map Prod.fst = _
  rw [List.map_cons, walk_children_map_fst]

theorem nodeNames_node (nm : String) (its : List DataItem) (cs : List DataNode) :
    nodeNames (.node nm its cs) = nm :: (cs.map nodeNames).flatten := by
  unfold nodeNames
  rw [allNodes_node, List.map_cons, List.map_flatten, List.map_map]
  rfl

theorem rowEntries_node (nm : String) (its : List DataItem) (cs : List DataNode) :
    rowEntries (.node nm its cs) =
      (nm, itemsDict its) :: (cs.map rowEntries).flatten := by
  unfold rowEntries
  rw [allNodes_node, List.map_cons, List.map_flatten, List.map_map]
  rfl

theorem rowEntries_map_fst (n : DataNode) :
    (rowEntries n).map Prod.fst = nodeNames n := by
  unfold rowEntries nodeNames
  rw [List.map_map]
  rfl

theorem dictInsert_append_of_not_mem {κ α : Type} [DecidableEq κ]
    (d : List (κ × α)) (k : κ) (v : α) (h : ∀ p ∈ d, p.1 ≠ k) :
    dictInsert d k v = d ++ [(k, v)] := by
  have hany : d.any (fun p => p.1 = k) = false :=
    List.any_eq_false.2 (fun p hp => by simpa using h p hp)
  simp [dictInsert, hany]

theorem dictUpdate_append_of_disjoint {κ α : Type} [DecidableEq κ]
    (d d2 : List (κ × α)) (hnd : (d2.map Prod.fst).Nodup)
    (hdisj : ∀ p ∈ d2, ∀ q ∈ d, q.1 ≠ p.1) :
    dictUpdate d d2 = d ++ d2 := by
  induction d2 generalizing d with
  | nil => simp [dictUpdate]
  | cons p rest ih =>
    show dictUpdate d (p :: rest) = _
    unfold dictUpdate
    rw [List.foldl_cons]
    rw [dictInsert_append_of_not_mem d p.1 p.2
      (fun q hq => hdisj p (List.mem_cons_self p rest) q hq)]
    have hnd2 : (rest.map Prod.fst).Nodup := (List.nodup_cons.1 hnd).2
    have hdisj2 : ∀ p2 ∈ rest, ∀ q ∈ d ++ [(p.1, p.2)], q.1 ≠ p2.1 := by
      intro p2 hp2 q hq
      rcases List.mem_append.1 hq with hq1 | hq2
      · exact hdisj p2 (List.mem_cons_of_mem p hp2) q hq1
      · rw [List.mem_singleton.1 hq2]
        intro he
        exact (List.nodup_cons.1 hnd).1 (he ▸ List.mem_map_of_mem Prod.fst hp2)
    have := ih (d ++ [(p.1, p.2)]) hnd2 hdisj2
    unfold dictUpdate at this
    rw [this, List.append_assoc]
    rfl

theorem pyLookup_of_mem_nodup {α : Type} (d : List (String × α)) (k : String)
    (v : α) (hnd : (d.map Prod.fst).Nodup) (hmem : (k, v) ∈ d) :
    pyLookup k d = some v := by
  induction d with
  | nil => cases hmem
  | cons p rest ih =>
    rcases List.mem_cons.1 hmem with h1 | h2
    · rw [← h1]
      simp [pyLookup]
    · have hp : ¬ (p.1 = k) := by
        intro he
        have : k ∈ rest.map Prod.fst := by
          have := List.mem_map_of_mem Prod.fst h2
          simpa using this
        exact (List.nodup_cons.1 hnd).1 (he ▸ this)
      simp only [pyLookup, if_neg hp]
      exact ih (List.nodup_cons.1 hnd).2 h2

mutual

theorem flatten_row_tree_eq : ∀ (n : DataNode),
    (nodeNames n).Nodup → flatten_row_tree n = rowEntries n
  | .node nm its cs, h => by
    rw [nodeNames_node] at h
    show flatten_children cs [(nm, itemsDict its)] = _
    rw [rowEntries_node]
    have hcomb : (([(nm, itemsDict its)] : Row).map Prod.fst ++
        (cs.map nodeNames).flatten).Nodup := by
      simpa using h
    rw [flatten_children_eq cs [(nm, itemsDict its)] hcomb]
    rfl

theorem flatten_children_eq : ∀ (cs : List DataNode) (d : Row),
    ((d.map Prod.fst) ++ (cs.map nodeNames).flatten).Nodup →
    flatten_children cs d = d ++ (cs.map rowEntries).flatten
  | [], d, _ => by simp [flatten_children]
  | c :: cs, d, h => by
    show flatten_children cs (dictUpdate d (flatten_row_tree c)) = _
    have hparts := List.nodup_append.1 h
    have hflat : ((c :: cs).map nodeNames).flatten =
        nodeNames c ++ (cs.map nodeNames).flatten := by
      rw [List.map_cons, List.flatten_cons]
    rw [hflat] at hparts
    have hc_nodup : (nodeNames c).Nodup :=
      ((List.nodup_append.1 hparts.2.1)).1
    have hceq := flatten_row_tree_eq c hc_nodup
    rw [hceq]
    have hupdate : dictUpdate d (rowEntries c) = d ++ rowEntries c := by
      apply dictUpdate_append_of_disjoint
      · rw [rowEntries_map_fst]
        exact hc_nodup
      · intro p hp q hq he
        apply hparts.2.2 (List.mem_map_of_mem Prod.fst hq)
        apply List.mem_append.2
        left
        rw [← rowEntries_map_fst c, he]
        exact List.mem_map_of_mem Prod.fst hp
    rw [hupdate]
    have hrest : (((d ++ rowEntries c).map Prod.fst) ++
        (cs.map nodeNames).flatten).Nodup := by
      rw [List.map_append, rowEntries_map_fst, List.append_assoc]
      rw [hflat] at h
      exact h
    rw [flatten_children_eq cs (d ++ rowEntries c) hrest]
    rw [List.map_cons, List.flatten_cons, List.append_assoc]

end

/-- C6: `flatten_tree` returns one mapping per row-tree, in forest order, and
each mapping sends every descendant node's name (the row root included) to
that node's key-to-value dictionary, with an absent (`None`) item value
replaced by the empty string (the replacement is inside `itemsDict`).  The
embedding is a pure function, as the source is. -/
theorem C6_flatten_tree (root : DataNode)
    (hd : ∀ t ∈ root.children, (nodeNames t).Nodup) :
    (flatten_tree root).length = root.children.length ∧
    ∀ (j : Nat) (t : DataNode), root.children.get? j = some t →
      ∃ r, (flatten_tree root).get? j = some r ∧
        ∀ d ∈ allNodes t, pyLookup d.name r = some (itemsDict d.items) := by
  constructor
  · simp [flatten_tree]
  · intro j t hj
    refine ⟨flatten_row_tree t, ?_, ?_⟩
    · rw [flatten_tree, List.get?_map, hj]
      rfl
    · intro d hdmem
      have ht : t ∈ root.children := List.get?_mem hj
      have hnd := hd t ht
      rw [flatten_row_tree_eq t hnd]
      apply pyLookup_of_mem_nodup
      · rw [rowEntries_map_fst]
        exact hnd
      · exact List.mem_map_of_mem _ hdmem

/-- Witness for C6 at the spec's end-to-end example: the nested node
`"Layer 1"` of the first row-tree is flattened into the first row mapping. -/
theorem C6_flatten_tree_witness :
    ∃ r, (flatten_tree (.node "root" []
        [.node "Deposition" [⟨"number", some "1", ""⟩]
            [.node "Layer 1" [⟨"gas", some "SiH4", ""⟩] []],
         .node "Deposition" [⟨"number", some "2", ""⟩] []])).get? 0 = some r ∧
      pyLookup "Layer 1" r = some [("gas", "SiH4")] := by
  obtain ⟨r, hr, hmap⟩ := (C6_flatten_tree (.node "root" []
      [.node "Deposition" [⟨"number", some "1", ""⟩]
          [.node "Layer 1" [⟨"gas", some "SiH4", ""⟩] []],
       .node "Deposition" [⟨"number", some "2", ""⟩] []]) (by decide)).2 0
    (.node "Deposition" [⟨"number", some "1", ""⟩]
        [.node "Layer 1" [⟨"gas", some "SiH4", ""⟩] []]) rfl
  exact ⟨r, hr, hmap (.node "Layer 1" [⟨"gas", some "SiH4", ""⟩] [])
    (List.Mem.tail _ (List.Mem.head _))⟩

/-! ## C8: the `OldDataForm` round-trip -/

theorem splitOnP_congr {α : Type} (p q : α → Bool) :
    ∀ (s : List α), (∀ c ∈ s, p c = q c) → s.splitOnP p = s.splitOnP q := by
  intro s
  induction s with
  | nil => intro _; rfl
  | cons a rest ih =>
    intro h
    rw [List.splitOnP_cons, List.splitOnP_cons, h a (List.mem_cons_self a rest),
      ih (fun c hc => h c (List.mem_cons_of_mem a hc))]

theorem natToDigitsCore_mem : ∀ (fuel n : Nat), n ≤ fuel →
    ∀ c ∈ natToDigitsCore fuel n, ∃ d, d < 10 ∧ c = Nat.digitChar d := by
  intro fuel
  induction fuel with
  | zero => intro n _ c hc; cases hc
  | succ f ih =>
    intro n hn c hc
    unfold natToDigitsCore at hc
    by_cases h0 : n = 0
    · rw [if_pos h0] at hc; cases hc
    · rw [if_neg h0] at hc
      rcases List.mem_append.1 hc with hc1 | hc2
      · have hdiv : n / 10 ≤ f := by
          have := Nat.div_lt_self (Nat.pos_of_ne_zero h0) (by decide : (1 : Nat) < 10)
          omega
        exact ih (n / 10) hdiv c hc1
      · rw [List.mem_singleton.1 hc2]
        exact ⟨n % 10, Nat.mod_lt n (by omega), rfl⟩

theorem natToDigitsCore_ne_nil (fuel n : Nat) (h1 : 0 < n) (h2 : n ≤ fuel) :
    natToDigitsCore fuel n ≠ [] := by
  cases fuel with
  | zero => omega
  | succ f =>
    unfold natToDigitsCore
    rw [if_neg (by omega)]
    simp

theorem natToDigitsCore_foldl : ∀ (fuel n : Nat), n ≤ fuel →
    (natToDigitsCore fuel n).foldl (fun a c => a * 10 + (c.toNat - 48)) 0 = n := by
  intro fuel
  induction fuel with
  | zero => intro n hn; interval_cases n; rfl
  | succ f ih =>
    intro n hn
    unfold natToDigitsCore
    by_cases h0 : n = 0
    · rw [if_pos h0]; simp [h0]
    · rw [if_neg h0]
      rw [List.foldl_append]
      have hdiv : n / 10 ≤ f := by
        have hlt : n / 10 < n := Nat.div_lt_self (Nat.pos_of_ne_zero h0) (by decide : (1 : Nat) < 10)
        omega
      rw [ih (n / 10) hdiv]
      have hm : n % 10 < 10 := Nat.mod_lt n (by omega)
      have htn : (Nat.digitChar (n % 10)).toNat = 48 + n % 10 := by
        interval_cases hh : (n % 10) <;> decide
      simp only [List.foldl_cons, List.foldl_nil, htn]
      omega

theorem digit_facts (d : Nat) (h : d < 10) :
    (Nat.digitChar d).isDigit = true ∧ (Nat.digitChar d).isWhitespace = false ∧
      Nat.digitChar d ≠ ' ' ∧ Nat.digitChar d ≠ tabChar := by
  interval_cases d <;> exact ⟨rfl, rfl, by decide, by decide⟩

theorem natToDigits_mem (n : Nat) :
    ∀ c ∈ natToDigits n, ∃ d, d < 10 ∧ c = Nat.digitChar d := by
  unfold natToDigits
  by_cases h0 : n = 0
  · rw [if_pos h0]
    intro c hc
    rw [List.mem_singleton.1 hc]
    exact ⟨0, by omega, rfl⟩
  · rw [if_neg h0]
    exact natToDigitsCore_mem (n + 1) n (by omega)

theorem natToDigits_ne_nil (n : Nat) : natToDigits n ≠ [] := by
  unfold natToDigits
  by_cases h0 : n = 0
  · rw [if_pos h0]; simp
  · rw [if_neg h0]
    exact natToDigitsCore_ne_nil (n + 1) n (Nat.pos_of_ne_zero h0) (by omega)

theorem pyInt_natToDigits (n : Nat) : pyInt (natToDigits n) = some n := by
  unfold pyInt
  rw [if_pos]
  · congr 1
    unfold natToDigits
    by_cases h0 : n = 0
    · rw [if_pos h0]; simp [h0]
    · rw [if_neg h0]
      exact natToDigitsCore_foldl (n + 1) n (by omega)
  · constructor
    · exact natToDigits_ne_nil n
    · rw [List.all_eq_true]
      intro c hc
      obtain ⟨d, hd, hcd⟩ := natToDigits_mem n c hc
      rw [hcd]
      exact (digit_facts d hd).1

theorem intercalate_cons_cons {α : Type} (sep : List α) (x y : List α)
    (l : List (List α)) :
    List.intercalate sep (x :: y :: l) = x ++ sep ++ List.intercalate sep (y :: l) := by
  simp [List.intercalate, List.intersperse_cons_cons, List.flatten_cons,
    List.append_assoc]

theorem mem_intercalate_space (ns : List Nat) :
    ∀ c ∈ List.intercalate [' '] (ns.map natToDigits),
      c = ' ' ∨ ∃ d, d < 10 ∧ c = Nat.digitChar d := by
  induction ns with
  | nil => intro c hc; cases hc
  | cons n rest ih =>
    cases rest with
    | nil =>
      intro c hc
      simp only [List.map_cons, List.map_nil] at hc
      have : List.intercalate [' '] [natToDigits n] = natToDigits n := by
        simp [List.intercalate]
      rw [this] at hc
      exact Or.inr (natToDigits_mem n c hc)
    | cons m rest2 =>
      intro c hc
      rw [List.map_cons, List.map_cons, intercalate_cons_cons] at hc
      rcases List.mem_append.1 hc with hc1 | hc2
      · rcases List.mem_append.1 hc1 with hc3 | hc4
        · exact Or.inr (natToDigits_mem n c hc3)
        · exact Or.inl (List.mem_singleton.1 hc4)
      · exact ih c hc2

theorem clean_columns_serialize (ns : List Nat) :
    clean_columns (serialize_columns ns) = some ns := by
  cases ns with
  | nil =>
    show mapOption pyInt ((List.splitOnP _ _).filter _) = some []
    rfl
  | cons n rest =>
    unfold clean_columns pySplitWhitespace
    have hcongr : (serialize_columns (n :: rest)).splitOnP (fun c => c.isWhitespace) =
        (serialize_columns (n :: rest)).splitOnP (fun c => c == ' ') := by
      apply splitOnP_congr
      intro c hc
      rcases mem_intercalate_space (n :: rest) c hc with h1 | ⟨d, hd, hcd⟩
      · rw [h1]; rfl
      · rw [hcd]
        have h2 := (digit_facts d hd).2.1
        have h3 := (digit_facts d hd).2.2.1
        rw [h2]
        cases hbe : (Nat.digitChar d == ' ') with
        | false => rfl
        | true => exact absurd (beq_iff_eq.1 hbe) h3
    rw [hcongr]
    have hsplit : (serialize_columns (n :: rest)).splitOnP (fun c => c == ' ') =
        (n :: rest).map natToDigits := by
      show (List.intercalate [' '] ((n :: rest).map natToDigits)).splitOn ' ' = _
      apply List.splitOn_intercalate ((n :: rest).map natToDigits) ' '
      · intro l hl hsp
        obtain ⟨m, _, hml⟩ := List.mem_map.1 hl
        obtain ⟨d, hd, hcd⟩ := natToDigits_mem m ' ' (hml ▸ hsp)
        exact (digit_facts d hd).2.2.1 hcd.symm
      · simp
    rw [hsplit]
    have hfilter : ((n :: rest).map natToDigits).filter (fun f => f ≠ []) =
        (n :: rest).map natToDigits := by
      rw [List.filter_eq_self]
      intro a ha
      obtain ⟨m, _, hml⟩ := List.mem_map.1 ha
      simpa [hml.symm] using natToDigits_ne_nil m
    rw [hfilter]
    have : ∀ ms : List Nat, mapOption pyInt (ms.map natToDigits) = some ms := by
      intro ms
      induction ms with
      | nil => rfl
      | cons a as iha =>
        show mapOption pyInt (natToDigits a :: as.map natToDigits) = _
        unfold mapOption
        rw [pyInt_natToDigits, iha]
    exact this (n :: rest)

theorem clean_groups_serialize (names : List (List Char)) (hne : names ≠ [])
    (htab : ∀ nm ∈ names, tabChar ∉ nm) :
    clean_column_groups (serialize_column_groups names) = names := by
  unfold clean_column_groups serialize_column_groups
  exact List.splitOn_intercalate names tabChar htab hne


/-- C8 counterexample: the empty set of column-group names does not survive
the round-trip: `"\t".join(set())` is the empty string, and splitting the
empty string on TAB yields `[""]`, so the deserialized set is `{""}`, not the
empty set. -/
theorem C8_empty_groups_counterexample :
    clean_column_groups (serialize_column_groups []) = [[]] ∧
    ([[]] : List (List Char)) ≠ ([] : List (List Char)) :=
  ⟨rfl, by decide⟩

/-- C8 amended: serializing a selection as `OldDataForm` does (group names
joined by TAB, indices in decimal joined by spaces) and deserializing via
`clean_column_groups` / `clean_columns` returns exactly the original
selection, for every nonempty set of TAB-free group names and every set of
indices including the empty one; only the empty group-name set breaks the
round-trip (it comes back as `{""}`). -/
theorem C8_roundtrip_amended (names : List (List Char)) (ns : List Nat)
    (hne : names ≠ []) (htab : ∀ nm ∈ names, tabChar ∉ nm) :
    clean_column_groups (serialize_column_groups names) = names ∧
    clean_columns (serialize_columns ns) = some ns :=
  ⟨clean_groups_serialize names hne htab, clean_columns_serialize ns⟩

/-- Witness for C8's amended round-trip at a concrete selection. -/
theorem C8_roundtrip_amended_witness :
    clean_column_groups (serialize_column_groups [['a'], ['b', 'c']]) =
      [['a'], ['b', 'c']] ∧
    clean_columns (serialize_columns [10, 0, 3]) = some [10, 0, 3] :=
  C8_roundtrip_amended [['a'], ['b', 'c']] [10, 0, 3] (by decide) (by decide)

/-! ## C1: structure of the column-group list -/

theorem pyInsert_map {α β : Type} (f : α → β) (l : List α) (pos : Nat) (a : α) :
    (pyInsert l pos a).map f = pyInsert (l.map f) pos (f a) := by
  simp [pyInsert, List.map_take, List.map_drop]

theorem mem_pyInsert {α : Type} (l : List α) (pos : Nat) (a x : α) :
    x ∈ pyInsert l pos a ↔ x = a ∨ x ∈ l := by
  have hl : x ∈ l ↔ x ∈ l.take pos ∨ x ∈ l.drop pos := by
    conv_lhs => rw [← List.take_append_drop pos l]
    exact List.mem_append
  rw [pyInsert, List.mem_append, List.mem_cons, hl]
  tauto

theorem pyInsert_sublist {α : Type} (l : List α) (pos : Nat) (a : α) :
    List.Sublist l (pyInsert l pos a) := by
  conv_lhs => rw [← List.take_append_drop pos l]
  exact (List.sublist_cons_self a (l.drop pos)).append_left (l.take pos)

theorem pyInsert_length {α : Type} (l : List α) (pos : Nat) (a : α) :
    (pyInsert l pos a).length = l.length + 1 := by
  simp [pyInsert]
  omega

theorem pyInsert_at_length {α : Type} (l : List α) (pos : Nat) (a : α)
    (h : pos = l.length) : pyInsert l pos a = l ++ [a] := by
  subst h
  simp [pyInsert]

theorem pyInsert_get_self {α : Type} (l : List α) (pos : Nat) (a : α)
    (h : pos ≤ l.length) : (pyInsert l pos a).get? pos = some a := by
  rw [pyInsert, List.get?_append_right (by simp [List.length_take])]
  simp [List.length_take, Nat.min_eq_left h]

theorem process_node_cursor (b : Bool) (s : BuildState) (nt : DataNode × Bool)
    (h : s.position ≤ s.column_groups.length) :
    ∃ g, (process_node b s nt).column_groups.get?
        ((process_node b s nt).position - 1) = some g ∧
      g.name = nt.1.name ∧ 0 < (process_node b s nt).position ∧
      (process_node b s nt).position ≤ (process_node b s nt).column_groups.length := by
  unfold process_node
  by_cases hcond : b = true ∧
      s.column_groups.any (fun g => g.name = nt.1.name) = true
  · rw [if_pos hcond]
    have hex : ∃ x ∈ s.column_groups, (fun g => decide (g.name = nt.1.name)) x = true := by
      simpa [List.any_eq_true] using hcond.2
    have hlt := List.findIdx_lt_length_of_exists hex
    refine ⟨s.column_groups.get ⟨_, hlt⟩, ?_, ?_, ?_, ?_⟩
    · simp only [Nat.add_sub_cancel]
      exact List.get?_eq_get hlt
    · have hp := @List.findIdx_getElem _ (fun g => decide (g.name = nt.1.name))
        s.column_groups hlt
      rw [List.get_eq_getElem]
      exact of_decide_eq_true hp
    · simp
    · simp only []
      omega
  · rw [if_neg hcond]
    have hget := pyInsert_get_self s.column_groups s.position
      ⟨nt.1.name, (nt.1.items.foldl (process_item nt.2 nt.1.name)
        ⟨[], s.columns, s.shared_columns, s.columns.length⟩).key_indices⟩ h
    have hlen : (pyInsert s.column_groups s.position
        ⟨nt.1.name, (nt.1.items.foldl (process_item nt.2 nt.1.name)
          ⟨[], s.columns, s.shared_columns, s.columns.length⟩).key_indices⟩).length =
        s.column_groups.length + 1 := pyInsert_length _ _ _
    exact ⟨_, hget, rfl, Nat.succ_pos s.position,
      le_of_le_of_eq (by omega : s.position + 1 ≤ s.column_groups.length + 1) hlen.symm⟩

theorem process_node_names (b : Bool) (s : BuildState) (nt : DataNode × Bool)
    (x : String) :
    x ∈ (process_node b s nt).column_groups.map ColumnGroup.name ↔
      x ∈ s.column_groups.map ColumnGroup.name ∨ x = nt.1.name := by
  unfold process_node
  by_cases hcond : b = true ∧
      s.column_groups.any (fun g => g.name = nt.1.name) = true
  · rw [if_pos hcond]
    constructor
    · exact Or.inl
    · rintro (hx | hx)
      · exact hx
      · obtain ⟨g, hg, hgn⟩ : ∃ g ∈ s.column_groups, g.name = nt.1.name := by
          simpa [List.any_eq_true] using hcond.2
        rw [hx, ← hgn]
        exact List.mem_map_of_mem ColumnGroup.name hg
  · rw [if_neg hcond]
    simp only [pyInsert_map]
    rw [mem_pyInsert]
    tauto

theorem process_node_nodup_true (s : BuildState) (nt : DataNode × Bool)
    (h : (s.column_groups.map ColumnGroup.name).Nodup) :
    ((process_node true s nt).column_groups.map ColumnGroup.name).Nodup := by
  unfold process_node
  by_cases hname : s.column_groups.any (fun g => g.name = nt.1.name) = true
  · rw [if_pos ⟨rfl, hname⟩]
    exact h
  · rw [if_neg (fun hc => hname hc.2)]
    simp only [pyInsert_map]
    have hnotin : nt.1.name ∉ s.column_groups.map ColumnGroup.name := by
      intro hmem
      apply hname
      rw [List.any_eq_true]
      obtain ⟨g, hg, hgn⟩ := List.mem_map.1 hmem
      exact ⟨g, hg, by simp [hgn]⟩
    rw [pyInsert, List.nodup_middle]
    rw [← List.map_take, ← List.map_drop]
    rw [List.nodup_cons, ← List.map_append, List.take_append_drop]
    exact ⟨hnotin, h⟩

theorem process_node_sublist (b : Bool) (s : BuildState) (nt : DataNode × Bool)
    (l : List String) (h : List.Sublist l (s.column_groups.map ColumnGroup.name)) :
    List.Sublist l ((process_node b s nt).column_groups.map ColumnGroup.name) := by
  unfold process_node
  by_cases hcond : b = true ∧
      s.column_groups.any (fun g => g.name = nt.1.name) = true
  · rw [if_pos hcond]
    exact h
  · rw [if_neg hcond]
    simp only [pyInsert_map]
    exact h.trans (pyInsert_sublist _ _ _)

theorem process_node_pos (b : Bool) (s : BuildState) (nt : DataNode × Bool)
    (h : s.position ≤ s.column_groups.length) :
    (process_node b s nt).position ≤ (process_node b s nt).column_groups.length := by
  obtain ⟨g, _, _, _, h4⟩ := process_node_cursor b s nt h
  exact h4

theorem walk_fold_names (b : Bool) :
    ∀ (ns : List (DataNode × Bool)) (s : BuildState) (x : String),
      x ∈ (ns.foldl (process_node b) s).column_groups.map ColumnGroup.name ↔
        x ∈ s.column_groups.map ColumnGroup.name ∨
          x ∈ ns.map (fun p => p.1.name) := by
  intro ns
  induction ns with
  | nil => intro s x; simp
  | cons nt rest ih =>
    intro s x
    rw [List.foldl_cons, ih (process_node b s nt) x, process_node_names]
    simp only [List.map_cons, List.mem_cons]
    tauto

theorem walkNames_eq (t : DataNode) (tl : Bool) :
    (walk_row_tree t tl).map (fun p => p.1.name) = nodeNames t := by
  have h1 : (walk_row_tree t tl).map (fun p => p.1.name) =
      ((walk_row_tree t tl).map Prod.fst).map DataNode.name := by
    rw [List.map_map]
    rfl
  rw [h1, walk_map_fst]
  rfl

theorem run_false_names :
    ∀ (ns : List (DataNode × Bool)) (s : BuildState),
      s.position = s.column_groups.length →
      ((ns.foldl (process_node false) s).column_groups.map ColumnGroup.name =
        s.column_groups.map ColumnGroup.name ++ ns.map (fun p => p.1.name)) ∧
      (ns.foldl (process_node false) s).position =
        (ns.foldl (process_node false) s).column_groups.length := by
  intro ns
  induction ns with
  | nil => intro s h; exact ⟨by simp, h⟩
  | cons nt rest ih =>
    intro s h
    rw [List.foldl_cons]
    have hcond : ¬ ((false = true) ∧
        (s.column_groups.any (fun g => g.name = nt.1.name)) = true) :=
      fun hc => by simpa using hc.1
    have hnames : (process_node false s nt).column_groups.map ColumnGroup.name =
        s.column_groups.map ColumnGroup.name ++ [nt.1.name] := by
      unfold process_node
      rw [if_neg hcond]
      simp only [pyInsert_at_length s.column_groups s.position _ h]
      simp
    have hposlen : (process_node false s nt).position =
        (process_node false s nt).column_groups.length := by
      unfold process_node
      rw [if_neg hcond]
      simp only [pyInsert_at_length s.column_groups s.position _ h]
      simp [h]
    obtain ⟨hn, hp⟩ := ih (process_node false s nt) hposlen
    refine ⟨?_, hp⟩
    rw [hn, hnames]
    simp [List.append_assoc]

theorem run_true_names :
    ∀ (ts : List DataNode) (s : BuildState) (x : String),
      x ∈ (ts.foldl (fun s2 t => (walk_row_tree t true).foldl (process_node true) s2)
          s).column_groups.map ColumnGroup.name ↔
        x ∈ s.column_groups.map ColumnGroup.name ∨
          x ∈ (ts.map nodeNames).flatten := by
  intro ts
  induction ts with
  | nil => intro s x; simp
  | cons t rest ih =>
    intro s x
    rw [List.foldl_cons, ih, walk_fold_names, walkNames_eq]
    simp only [List.map_cons, List.flatten_cons, List.mem_append]
    tauto

theorem run_true_inv :
    ∀ (ts : List DataNode) (s : BuildState),
      ((s.column_groups.map ColumnGroup.name).Nodup ∧
        s.position ≤ s.column_groups.length) →
      (((ts.foldl (fun s2 t => (walk_row_tree t true).foldl (process_node true) s2)
          s).column_groups.map ColumnGroup.name).Nodup ∧
        (ts.foldl (fun s2 t => (walk_row_tree t true).foldl (process_node true) s2)
          s).position ≤
        (ts.foldl (fun s2 t => (walk_row_tree t true).foldl (process_node true) s2)
          s).column_groups.length) := by
  intro ts s hs
  refine foldl_preserve _
    (fun s2 : BuildState => ((s2.column_groups.map ColumnGroup.name).Nodup ∧
      s2.position ≤ s2.column_groups.length)) ?_ ts s hs
  intro s2 t hs2
  refine foldl_preserve _
    (fun s3 : BuildState => ((s3.column_groups.map ColumnGroup.name).Nodup ∧
      s3.position ≤ s3.column_groups.length)) ?_ _ s2 hs2
  intro s3 nt hs3
  exact ⟨process_node_nodup_true s3 nt hs3.1, process_node_pos true s3 nt hs3.2⟩

theorem run_true_sublist :
    ∀ (ts : List DataNode) (s : BuildState) (l : List String),
      List.Sublist l (s.column_groups.map ColumnGroup.name) →
      List.Sublist l
        ((ts.foldl (fun s2 t => (walk_row_tree t true).foldl (process_node true) s2)
          s).column_groups.map ColumnGroup.name) := by
  intro ts s l hl
  refine foldl_preserve _
    (fun s2 : BuildState =>
      List.Sublist l (s2.column_groups.map ColumnGroup.name)) ?_ ts s hl
  intro s2 t hs2
  refine foldl_preserve _
    (fun s3 : BuildState =>
      List.Sublist l (s3.column_groups.map ColumnGroup.name)) ?_ _ s2 hs2
  intro s3 nt hs3
  exact process_node_sublist true s3 nt l hs3

theorem enumFrom_fold_flag :
    ∀ (l : List DataNode) (k : Nat) (s : BuildState), 0 < k →
      (l.enumFrom k).foldl
        (fun s2 p => (walk_row_tree p.2 true).foldl
          (process_node (decide (0 < p.1))) s2) s =
      l.foldl (fun s2 t => (walk_row_tree t true).foldl (process_node true) s2) s := by
  intro l
  induction l with
  | nil => intro k s _; rfl
  | cons t rest ih =>
    intro k s hk
    rw [List.enumFrom_cons, List.foldl_cons, List.foldl_cons]
    have hdec : decide (0 < k) = true := decide_eq_true hk
    rw [hdec]
    exact ih (k + 1) _ (by omega)

/-- C1: for a forest of internally disambiguated row-trees,
`build_column_group_list` returns exactly one `ColumnGroup` per distinct node
name occurring in any row-tree (the names are duplicate-free and their set is
the set of all node names of the forest); the groups introduced by the first
row-tree keep their first-established relative order (their walk order is a
sublist of the final order); and after each processed node the insertion
cursor stands immediately after that node's group, so a new node of a later
walk is inserted at the cursor position immediately following the previously
matched or inserted group of that same walk. -/
theorem C1_column_group_list (root : DataNode)
    (hd : ∀ t ∈ root.children, (nodeNames t).Nodup) :
    ((build_column_group_list root).1.map ColumnGroup.name).Nodup ∧
    (∀ x, x ∈ (build_column_group_list root).1.map ColumnGroup.name ↔
      x ∈ (root.children.map nodeNames).flatten) ∧
    (∀ t0 rest, root.children = t0 :: rest →
      List.Sublist (nodeNames t0)
        ((build_column_group_list root).1.map ColumnGroup.name)) ∧
    (∀ (b : Bool) (s : BuildState) (nt : DataNode × Bool),
      s.position ≤ s.column_groups.length →
      ∃ g, (process_node b s nt).column_groups.get?
          ((process_node b s nt).position - 1) = some g ∧
        g.name = nt.1.name ∧ 0 < (process_node b s nt).position ∧
        (process_node b s nt).position ≤ (process_node b s nt).column_groups.length) := by
  cases root with
  | node nm its cs =>
    cases cs with
    | nil =>
      refine ⟨?_, ?_, ?_, fun b s nt hp => process_node_cursor b s nt hp⟩
      · simp [build_column_group_list, build_state, DataNode.children]
      · intro x
        simp [build_column_group_list, build_state, DataNode.children]
      · intro t0 rest hch
        exact absurd hch (by simp [DataNode.children])
    | cons t0 rest =>
      have hb2 : build_state (.node nm its (t0 :: rest)) =
          rest.foldl (fun s2 t => (walk_row_tree t true).foldl (process_node true) s2)
            ((walk_row_tree t0 true).foldl (process_node false)
              ⟨[], [], [], 0⟩) := by
        unfold build_state
        have hch : DataNode.children (.node nm its (t0 :: rest)) = t0 :: rest := rfl
        rw [hch, List.enum_cons, List.foldl_cons]
        rw [show (decide (0 < ((0 : Nat), t0).1)) = false from rfl]
        exact enumFrom_fold_flag rest 1 _ (by omega)
      have hkey : (build_column_group_list (DataNode.node nm its (t0 :: rest))).1 =
          (rest.foldl (fun s2 t => (walk_row_tree t true).foldl (process_node true) s2)
            ((walk_row_tree t0 true).foldl (process_node false)
              ⟨[], [], [], 0⟩)).column_groups := by
        rw [show (build_column_group_list (DataNode.node nm its (t0 :: rest))).1 =
            (build_state (DataNode.node nm its (t0 :: rest))).column_groups from rfl,
          hb2]
      obtain ⟨hrow0names, hrow0pos⟩ :=
        run_false_names (walk_row_tree t0 true) ⟨[], [], [], 0⟩ rfl
      have hrow0names2 : ((walk_row_tree t0 true).foldl (process_node false)
          ⟨[], [], [], 0⟩).column_groups.map ColumnGroup.name = nodeNames t0 := by
        rw [hrow0names, walkNames_eq]
        simp
      have ht0nodup : (nodeNames t0).Nodup := hd t0 (List.mem_cons_self t0 rest)
      refine ⟨?_, ?_, ?_, fun b s nt hp => process_node_cursor b s nt hp⟩
      · rw [hkey]
        exact (run_true_inv rest _ ⟨hrow0names2 ▸ ht0nodup, le_of_eq hrow0pos⟩).1
      · intro x
        rw [hkey, run_true_names, hrow0names2]
        have hch : DataNode.children (.node nm its (t0 :: rest)) = t0 :: rest := rfl
        rw [hch, List.map_cons, List.flatten_cons, List.mem_append]
      · intro t02 rest2 hch2
        have hch : DataNode.children (.node nm its (t0 :: rest)) = t0 :: rest := rfl
        rw [hch] at hch2
        have ht02 : t02 = t0 := (List.cons.injEq t02 rest2 t0 rest ▸ hch2.symm).1
        rw [hkey, ht02]
        exact run_true_sublist rest _ (nodeNames t0)
          (hrow0names2 ▸ List.Sublist.refl _)

/-- Witness for C1: the interleaving example (first tree `A [B, C]`, second
tree `A [D]`) produces duplicate-free group names. -/
theorem C1_column_group_list_witness :
    ((build_column_group_list
      (.node "r" [] [.node "A" [] [.node "B" [] [], .node "C" [] []],
                     .node "A" [] [.node "D" [] []]])).1.map ColumnGroup.name).Nodup :=
  (C1_column_group_list
    (.node "r" [] [.node "A" [] [.node "B" [] [], .node "C" [] []],
                   .node "A" [] [.node "D" [] []]]) (by decide)).1
